import Mathlib

/-!
Shallow embedding of `model.py`, `train.py` and `sample.py` of the
equivariant denoising diffusion repository, together with theorems settling
the specification claims about them.

Tensors are embedded as total functions from natural-number indices to real
values; the dimension of each axis is passed explicitly wherever an
operation (a sum, a concatenation, a mean) needs it.  Floating point
arithmetic is modelled by exact real arithmetic; the noise-schedule
computation and the integer index arithmetic of the schedule lookup are
modelled over `ℚ` and `ℤ` so that they stay executable.  Learned weights
are explicit parameters of the layer and model structures, so each theorem
quantifies over (or exhibits) a concrete weight assignment.
-/

open Real

/-- Width of the output of the positional encoder: the sine half has
`embed_dim / 2` entries (from `torch.arange(embed_dim // 2)`) and the cosine
half has the same, so the concatenated last axis has
`embed_dim / 2 + embed_dim / 2` entries. -/
def speWidth (embed_dim : ℕ) : ℕ := embed_dim / 2 + embed_dim / 2

/-- `inv_freq` of `sinusoidal_positional_encoding` (model.py line 25):
`1.0 / (embed_size ** (2 * i / embed_dim))` for channel `i`. -/
noncomputable def inv_freq (embed_dim embed_size : ℕ) (i : ℕ) : ℝ :=
  1 / (embed_size : ℝ) ^ ((2 * (i : ℝ)) / (embed_dim : ℝ))

/-- `sinusoidal_positional_encoding` (model.py lines 24-34), pointwise in the
position `x`: entry `k` of the last axis is `sin (x * π * inv_freq k)` for
`k < embed_dim / 2` (the sine half) and
`cos (x * π * inv_freq (k - embed_dim / 2))` for the cosine half.  The
meaningful channels are `k < speWidth embed_dim`. -/
noncomputable def sinusoidal_positional_encoding
    (x : ℝ) (embed_dim embed_size : ℕ) : ℕ → ℝ :=
  fun k =>
    if k < embed_dim / 2 then
      Real.sin (x * Real.pi * inv_freq embed_dim embed_size k)
    else
      Real.cos (x * Real.pi * inv_freq embed_dim embed_size (k - embed_dim / 2))

/-- The re-masking line of `sample_protein_backbone` (sample.py line 63):
`coords * atom_mask.unsqueeze(-1) + (1 - atom_mask.unsqueeze(-1)) * coords`,
with the mask broadcast over the coordinate axis. -/
def remaskCoords (coords : ℕ → ℕ → ℕ → ℕ → ℝ) (atom_mask : ℕ → ℕ → ℕ → ℝ) :
    ℕ → ℕ → ℕ → ℕ → ℝ :=
  fun b n a c =>
    coords b n a c * atom_mask b n a + (1 - atom_mask b n a) * coords b n a c

/-- Forward noising of the training loop (train.py line 146), pointwise:
`sqrt(alpha_cumprod) * coords + sqrt(1 - alpha_cumprod) * noise`. -/
noncomputable def forwardNoise (a x0 eps : ℝ) : ℝ :=
  Real.sqrt a * x0 + Real.sqrt (1 - a) * eps

/-- Closed-form noise extraction of `ProteinDiffusionModel.forward`
(model.py line 143), pointwise, parametrised by the gathered schedule value
`a`: `(coords - sqrt(cum_a_t) * curr_coords) / sqrt(1 - cum_a_t)`. -/
noncomputable def ddpmExtract (a x finalc : ℝ) : ℝ :=
  (x - Real.sqrt a * finalc) / Real.sqrt (1 - a)

/-- `torch.linspace(a, b, steps)`: `steps` evenly spaced values from `a` to
`b` inclusive; for `steps = 1` the result is `[a]` (model.py line 83 uses
this for the betas). -/
def linspace (a b : ℚ) (steps : ℕ) : List ℚ :=
  (List.range steps).map
    (fun (i : ℕ) => if steps ≤ 1 then a else a + i * (b - a) / ((steps : ℚ) - 1))

/-- `self.betas` (model.py line 83). -/
def betas (bs be : ℚ) (T : ℕ) : List ℚ := linspace bs be T

/-- `self.alphas = 1.0 - self.betas` (model.py line 84). -/
def alphas (bs be : ℚ) (T : ℕ) : List ℚ :=
  (betas bs be T).map (fun beta => 1 - beta)

/-- `self.alpha_cumprod = torch.cumprod(self.alphas, dim=0)`
(model.py line 85): entry `i` is the product of the first `i + 1` alphas. -/
def alphaCumprod (bs be : ℚ) (T : ℕ) : List ℚ :=
  (List.range T).map (fun i => ((alphas bs be T).take (i + 1)).prod)

/-- `self.alpha_cumprod_prev = torch.cat([tensor([1.0]), alpha_cumprod[:-1]])`
(model.py lines 86-88). -/
def alphaCumprodPrev (bs be : ℚ) (T : ℕ) : List ℚ :=
  1 :: (alphaCumprod bs be T).dropLast

/-- Entry `i` of the betas (0 when out of range). -/
def betaAt (bs be : ℚ) (T i : ℕ) : ℚ := (betas bs be T).getD i 0

/-- Entry `i` of the alphas (0 when out of range). -/
def alphaAt (bs be : ℚ) (T i : ℕ) : ℚ := (alphas bs be T).getD i 0

/-- Entry `i` of the cumulative alpha product (0 when out of range). -/
def alphaCumprodAt (bs be : ℚ) (T i : ℕ) : ℚ :=
  (alphaCumprod bs be T).getD i 0

/-- Truncation toward zero of `t / T`: the value of
`(times.float() / diffusion_steps).long()` computed by model.py line 127
followed by the `.long()` cast in line 142, for an integer timestep `t`. -/
def longOfDiv (t : ℤ) (T : ℕ) : ℤ :=
  if 0 ≤ t then ((t.toNat / T : ℕ) : ℤ) else -(((-t).toNat / T : ℕ) : ℤ)

/-- PyTorch tensor indexing semantics for a 1-D tensor: a nonnegative index
must be below the length, a negative index `-k` with `k ≤ length` wraps to
`length - k`; anything else raises an index-out-of-range error (`none`). -/
def torchIndex (l : List ℚ) (i : ℤ) : Option ℚ :=
  if 0 ≤ i then l[i.toNat]?
  else if (-i).toNat ≤ l.length then l[l.length - (-i).toNat]? else none

/-- The schedule gather of `ProteinDiffusionModel.forward` (model.py line
142): `self.alpha_cumprod[times.long()]` where `times` has already been
normalised to `times / diffusion_steps` by line 127. -/
def gatherCumA (bs be : ℚ) (T : ℕ) (t : ℤ) : Option ℚ :=
  torchIndex (alphaCumprod bs be T) (longOfDiv t T)

/-- The batched schedule gather: the vectorised index succeeds only if the
lookup of every batch element's timestep succeeds. -/
def gatherAll (bs be : ℚ) (T B : ℕ) (times : ℕ → ℤ) : Option (ℕ → ℚ) :=
  if ∀ b ∈ Finset.range B, (gatherCumA bs be T (times b)).isSome = true
  then some (fun b => (gatherCumA bs be T (times b)).getD 0)
  else none

/-- Weights and bias of a `torch.nn.Linear` layer. -/
structure LinearP where
  weight : ℕ → ℕ → ℝ
  bias : ℕ → ℝ

/-- Application of a linear layer with `nin` input features. -/
noncomputable def linear (p : LinearP) (nin : ℕ) (x : ℕ → ℝ) : ℕ → ℝ :=
  fun o => (∑ i in Finset.range nin, p.weight o i * x i) + p.bias o

/-- The logistic sigmoid. -/
noncomputable def sigmoid (x : ℝ) : ℝ := 1 / (1 + Real.exp (-x))

/-- `torch.nn.SiLU`: `x * sigmoid x`. -/
noncomputable def silu (x : ℝ) : ℝ := x * sigmoid x

/-- `self.edge_mlp` (model.py lines 166-171): Linear, SiLU, Linear, SiLU. -/
noncomputable def edgeMLP (L1 L2 : LinearP) (nin nh : ℕ) (x : ℕ → ℝ) : ℕ → ℝ :=
  fun h => silu (linear L2 nh (fun k => silu (linear L1 nin x k)) h)

/-- `self.node_mlp` (model.py lines 174-178): Linear, SiLU, Linear. -/
noncomputable def nodeMLP (L1 L2 : LinearP) (nin nh : ℕ) (x : ℕ → ℝ) : ℕ → ℝ :=
  fun o => linear L2 nh (fun k => silu (linear L1 nin x k)) o

/-- `self.coord_mlp` (model.py lines 182-186): Linear, SiLU, Linear to one
output feature; the scalar gate is that single output. -/
noncomputable def coordMLP (L1 L2 : LinearP) (nh : ℕ) (x : ℕ → ℝ) : ℝ :=
  linear L2 nh (fun k => silu (linear L1 nh x k)) 0

/-- `torch.nn.LayerNorm` over `d` features with affine weights and the
default `eps = 1e-5`. -/
noncomputable def layerNorm (w bi : ℕ → ℝ) (d : ℕ) (x : ℕ → ℝ) : ℕ → ℝ :=
  let mu := (∑ i in Finset.range d, x i) / (d : ℝ)
  let v := (∑ i in Finset.range d, (x i - mu) ^ 2) / (d : ℝ)
  fun o => w o * ((x o - mu) / Real.sqrt (v + 1 / 100000)) + bi o

/-- Concatenation of two feature vectors along the feature axis, the first
one having `n1` features. -/
def catFeat (n1 : ℕ) (x y : ℕ → ℝ) : ℕ → ℝ :=
  fun k => if k < n1 then x k else y (k - n1)

/-- Dimensions and learned weights of an `EGNNLayer` (model.py
lines 148-186). -/
structure EGNNLayer where
  input_nf : ℕ
  hidden_nf : ℕ
  output_nf : ℕ
  edge_embed_dim : ℕ
  max_len : ℕ
  edgeL1 : LinearP
  edgeL2 : LinearP
  nodeL1 : LinearP
  nodeL2 : LinearP
  coordL1 : LinearP
  coordL2 : LinearP
  normWeight : ℕ → ℝ
  normBias : ℕ → ℝ

/-- The edge-feature concatenation of `EGNNLayer.forward` (model.py lines
216-224): `[node_features_i, node_features_j, rel_residue_enc,
directional_vectors]` along the last axis. -/
def edgeFeatures (L : EGNNLayer) (node_features : ℕ → ℕ → ℕ → ℝ)
    (relEnc : ℕ → ℕ → ℕ → ℕ → ℝ) (dirVec : ℕ → ℕ → ℕ → ℕ → ℝ) :
    ℕ → ℕ → ℕ → ℕ → ℝ :=
  fun b i j k =>
    if k < L.input_nf then node_features b i k
    else if k < 2 * L.input_nf then node_features b j (k - L.input_nf)
    else if k < 2 * L.input_nf + L.edge_embed_dim then
      relEnc b i j (k - 2 * L.input_nf)
    else dirVec b i j (k - (2 * L.input_nf + L.edge_embed_dim))

/-- `EGNNLayer.forward` (model.py lines 188-244) over a batch of `B`
proteins with `N` residues of `A` atoms each: returns the pair of updated
coordinates and updated node features. -/
noncomputable def EGNNLayer.forward (L : EGNNLayer) (B N A : ℕ)
    (coords : ℕ → ℕ → ℕ → ℕ → ℝ) (node_features : ℕ → ℕ → ℕ → ℝ)
    (atom_mask : ℕ → ℕ → ℕ → ℝ) (residue_indices : ℕ → ℕ → ℝ) :
    (ℕ → ℕ → ℕ → ℕ → ℝ) × (ℕ → ℕ → ℕ → ℝ) :=
  let rel_residue_enc : ℕ → ℕ → ℕ → ℕ → ℝ := fun b i j =>
    sinusoidal_positional_encoding (residue_indices b i - residue_indices b j)
      L.edge_embed_dim L.max_len
  let directional_vectors : ℕ → ℕ → ℕ → ℕ → ℝ := fun b i j c =>
    (∑ a in Finset.range A, (coords b i a c - coords b j a c)) / (A : ℝ)
  let edge_messages : ℕ → ℕ → ℕ → ℕ → ℝ := fun b i j =>
    edgeMLP L.edgeL1 L.edgeL2 (2 * L.input_nf + L.edge_embed_dim + 3)
      L.hidden_nf (edgeFeatures L node_features rel_residue_enc directional_vectors b i j)
  let aggregated_messages : ℕ → ℕ → ℕ → ℝ := fun b i h =>
    ∑ j in Finset.range N, edge_messages b i j h
  let updated_node_features : ℕ → ℕ → ℕ → ℝ := fun b i =>
    layerNorm L.normWeight L.normBias L.output_nf
      (nodeMLP L.nodeL1 L.nodeL2 (L.input_nf + L.hidden_nf) L.hidden_nf
        (catFeat L.input_nf (node_features b i) (aggregated_messages b i)))
  let coord_updates : ℕ → ℕ → ℕ → ℝ := fun b i c =>
    ∑ j in Finset.range N,
      coordMLP L.coordL1 L.coordL2 L.hidden_nf (edge_messages b i j) *
        directional_vectors b i j c
  (fun b i a c => coords b i a c + coord_updates b i c * atom_mask b i a,
   updated_node_features)

/-- Hyperparameters, schedule inputs and layer stack of a
`ProteinDiffusionModel` (model.py lines 46-100).  The schedule lists are
recovered from `beta_start`, `beta_end` and `diffusion_steps` through
`betas`, `alphas`, `alphaCumprod` and `alphaCumprodPrev`. -/
structure ProteinDiffusionModel where
  max_residues : ℕ
  diffusion_steps : ℕ
  hidden_size : ℕ
  num_atoms : ℕ
  beta_start : ℚ
  beta_end : ℚ
  egnn_layers : List EGNNLayer

/-- `ProteinDiffusionModel.forward` (model.py lines 102-145).  The result is
`none` exactly when the schedule gather of line 142 raises an
index-out-of-range error; otherwise it is the masked predicted noise. -/
noncomputable def ProteinDiffusionModel.forward (M : ProteinDiffusionModel)
    (B N A : ℕ) (coords : ℕ → ℕ → ℕ → ℕ → ℝ) (residue_indices : ℕ → ℕ → ℤ)
    (times : ℕ → ℤ) (atom_mask : ℕ → ℕ → ℕ → ℝ) :
    Option (ℕ → ℕ → ℕ → ℕ → ℝ) :=
  let residue_embedding : ℕ → ℕ → ℕ → ℝ := fun b n =>
    sinusoidal_positional_encoding ((residue_indices b n : ℝ))
      M.hidden_size M.max_residues
  let time_embedding : ℕ → ℕ → ℝ := fun b =>
    sinusoidal_positional_encoding
      ((times b : ℝ) / (M.diffusion_steps : ℝ)) M.hidden_size 10000
  let node_features : ℕ → ℕ → ℕ → ℝ := fun b n k =>
    residue_embedding b n k + time_embedding b k
  let finalState :=
    M.egnn_layers.foldl
      (fun st L => EGNNLayer.forward L B N A st.1 st.2 atom_mask
        (fun b n => ((residue_indices b n : ℝ)))) (coords, node_features)
  (gatherAll M.beta_start M.beta_end M.diffusion_steps B times).map
    (fun cum_a => fun b n a c =>
      ddpmExtract ((cum_a b : ℝ)) (coords b n a c) (finalState.1 b n a c) *
        atom_mask b n a)

/-- A linear layer whose single output selects input channel `j`. -/
noncomputable def selW (j : ℕ) : LinearP :=
  ⟨fun o i => if o = 0 ∧ i = j then 1 else 0, fun _ => 0⟩

/-- An all-zero linear layer. -/
noncomputable def zeroW : LinearP := ⟨fun _ _ => 0, fun _ => 0⟩

/-- A concrete EGNN layer (1 node feature, hidden width 1, edge embedding
width 2) whose edge MLP reads exactly the x component of the directional
vector; channel 4 of the edge features is `directional_vectors[..., 0]`. -/
noncomputable def cLayer : EGNNLayer :=
  { input_nf := 1, hidden_nf := 1, output_nf := 1, edge_embed_dim := 2,
    max_len := 4,
    edgeL1 := selW 4, edgeL2 := selW 0, nodeL1 := zeroW, nodeL2 := zeroW,
    coordL1 := selW 0, coordL2 := selW 0,
    normWeight := fun _ => 1, normBias := fun _ => 0 }

/-- Concrete coordinates for two residues with one atom slot each: residue 0
sits at `(1,0,0)`, residue 1 at the origin. -/
noncomputable def cCoords : ℕ → ℕ → ℕ → ℕ → ℝ :=
  fun _ n _ c => if n = 0 ∧ c = 0 then 1 else 0

/-- The same configuration rotated by 90 degrees about the z axis: residue 0
at `(0,1,0)`, residue 1 at the origin. -/
noncomputable def cCoordsRot : ℕ → ℕ → ℕ → ℕ → ℝ :=
  fun _ n _ c => if n = 0 ∧ c = 1 then 1 else 0

/-- Rotation by 90 degrees about the z axis acting on a coordinate triple:
`(x, y, z) ↦ (-y, x, z)`. -/
noncomputable def rotZ (v : ℕ → ℝ) : ℕ → ℝ :=
  fun c => if c = 0 then -(v 1) else if c = 1 then v 0 else v 2

/-- All-zero node features. -/
noncomputable def cNodeF : ℕ → ℕ → ℕ → ℝ := fun _ _ _ => 0

/-- All-ones atom mask. -/
noncomputable def cMask1 : ℕ → ℕ → ℕ → ℝ := fun _ _ _ => 1

/-- All-zero atom mask. -/
noncomputable def cMask0 : ℕ → ℕ → ℕ → ℝ := fun _ _ _ => 0

/-- All-zero residue indices (as the layer receives them). -/
noncomputable def cRes0 : ℕ → ℕ → ℝ := fun _ _ => 0

/-- All-zero coordinate tensor. -/
noncomputable def zeroT4 : ℕ → ℕ → ℕ → ℕ → ℝ := fun _ _ _ _ => 0

/-- All-zero integer residue indices (as the model receives them). -/
def zeroResIdx : ℕ → ℕ → ℤ := fun _ _ => 0

/-- A concrete model with two diffusion steps, the default beta range and an
empty EGNN stack. -/
noncomputable def cModel : ProteinDiffusionModel :=
  { max_residues := 4, diffusion_steps := 2, hidden_size := 2, num_atoms := 1,
    beta_start := 1/10000, beta_end := 1/50, egnn_layers := [] }

/-- C7: for every position `x` and every even `embed_dim ≥ 2`, the encoder
output has last-axis width `embed_dim`; the sine half is
`sin (x * π * embed_size ^ (-2*i/embed_dim))`, the cosine half (at slot
`embed_dim/2 + i`) is `cos` of the same angle, and the encoding of position
`0` has an all-zero sine half and an all-one cosine half. -/
theorem sinusoidal_encoding_spec (d s : ℕ) (x : ℝ)
    (hev : Even d) (hd : 2 ≤ d) :
    speWidth d = d ∧
    (∀ i, i < d / 2 →
      sinusoidal_positional_encoding x d s i =
        Real.sin (x * Real.pi * (s : ℝ) ^ (-(2 * (i : ℝ) / (d : ℝ))))) ∧
    (∀ i, i < d / 2 →
      sinusoidal_positional_encoding x d s (d / 2 + i) =
        Real.cos (x * Real.pi * (s : ℝ) ^ (-(2 * (i : ℝ) / (d : ℝ))))) ∧
    (∀ i, i < d / 2 → sinusoidal_positional_encoding 0 d s i = 0) ∧
    (∀ i, i < d / 2 → sinusoidal_positional_encoding 0 d s (d / 2 + i) = 1) := by
  have hfreq : ∀ i : ℕ, inv_freq d s i = (s : ℝ) ^ (-(2 * (i : ℝ) / (d : ℝ))) := by
    intro i
    rw [inv_freq, Real.rpow_neg (by positivity), one_div]
  have hwidth : speWidth d = d := by
    obtain ⟨r, hr⟩ := hev
    subst hr
    simp [speWidth]
    omega
  refine ⟨hwidth, ?_, ?_, ?_, ?_⟩
  · intro i hi
    rw [sinusoidal_positional_encoding, if_pos hi, hfreq]
  · intro i hi
    rw [sinusoidal_positional_encoding, if_neg (by omega)]
    rw [Nat.add_sub_cancel_left, hfreq]
  · intro i hi
    rw [sinusoidal_positional_encoding, if_pos hi]
    simp
  · intro i hi
    rw [sinusoidal_positional_encoding, if_neg (by omega)]
    simp

/-- Witness for C7 at `embed_dim = 2`, `embed_size = 7`, position `0`. -/
theorem sinusoidal_encoding_spec_witness :
    speWidth 2 = 2 ∧
    sinusoidal_positional_encoding 0 2 7 0 = 0 ∧
    sinusoidal_positional_encoding 0 2 7 (2 / 2 + 0) = 1 := by
  have h := sinusoidal_encoding_spec 2 7 0 ⟨1, rfl⟩ (by omega)
  exact ⟨h.1, h.2.2.2.1 0 (by omega), h.2.2.2.2 0 (by omega)⟩

/-- C9: for odd `embed_dim`, the positional encoder does not reject the
input; the sine and cosine halves each have `embed_dim / 2` channels, so the
last axis silently has width `embed_dim - 1`, and the sine half is still
given by the usual formula. -/
theorem sinusoidal_encoding_odd_width (d : ℕ) (hodd : Odd d) :
    speWidth d = d - 1 ∧
    (∀ (s : ℕ) (x : ℝ) (i : ℕ), i < d / 2 →
      sinusoidal_positional_encoding x d s i =
        Real.sin (x * Real.pi * inv_freq d s i)) := by
  constructor
  · obtain ⟨k, hk⟩ := hodd
    subst hk
    simp [speWidth]
    omega
  · intro s x i hi
    rw [sinusoidal_positional_encoding, if_pos hi]

/-- Witness for C9 at `embed_dim = 3`. -/
theorem sinusoidal_encoding_odd_width_witness :
    speWidth 3 = 3 - 1 ∧
    sinusoidal_positional_encoding 0 3 7 0 = Real.sin (0 * Real.pi * inv_freq 3 7 0) :=
  ⟨(sinusoidal_encoding_odd_width 3 ⟨1, rfl⟩).1,
   (sinusoidal_encoding_odd_width 3 ⟨1, rfl⟩).2 7 0 0 (by omega)⟩

/-- C8: the sampler's re-masking line is the identity: for every coordinate
tensor and every 0/1 atom mask, `coords * mask + (1 - mask) * coords`
equals `coords`, so the line preserves nothing. -/
theorem remask_identity (coords : ℕ → ℕ → ℕ → ℕ → ℝ)
    (atom_mask : ℕ → ℕ → ℕ → ℝ)
    (hmask : ∀ b n a, atom_mask b n a = 0 ∨ atom_mask b n a = 1) :
    remaskCoords coords atom_mask = coords := by
  funext b n a c
  have := hmask b n a
  rw [remaskCoords]
  ring

/-- Witness for C8 with an all-ones mask and a constant coordinate tensor. -/
theorem remask_identity_witness :
    remaskCoords (fun _ _ _ _ => (5 : ℝ)) (fun _ _ _ => (1 : ℝ)) =
      fun _ _ _ _ => (5 : ℝ) :=
  remask_identity (fun _ _ _ _ => (5 : ℝ)) (fun _ _ _ => (1 : ℝ))
    (fun _ _ _ => Or.inr rfl)

theorem length_betas (bs be : ℚ) (T : ℕ) : (betas bs be T).length = T := by
  simp [betas, linspace]

theorem length_alphas (bs be : ℚ) (T : ℕ) : (alphas bs be T).length = T := by
  simp [alphas, length_betas]

theorem length_alphaCumprod (bs be : ℚ) (T : ℕ) :
    (alphaCumprod bs be T).length = T := by
  simp [alphaCumprod]

theorem length_alphaCumprodPrev (bs be : ℚ) (T : ℕ) (hT : 1 ≤ T) :
    (alphaCumprodPrev bs be T).length = T := by
  simp [alphaCumprodPrev, length_alphaCumprod]
  omega

theorem betaAt_eq (bs be : ℚ) (T i : ℕ) (h : i < T) :
    betaAt bs be T i =
      if T ≤ 1 then bs else bs + i * (be - bs) / ((T : ℚ) - 1) := by
  rw [betaAt, betas, linspace, List.getD_eq_getElem?_getD, List.getElem?_map,
    List.getElem?_range h]
  rfl

theorem alphaAt_eq (bs be : ℚ) (T i : ℕ) (h : i < T) :
    alphaAt bs be T i = 1 - betaAt bs be T i := by
  rw [alphaAt, betaAt, alphas, List.getD_eq_getElem?_getD,
    List.getD_eq_getElem?_getD, List.getElem?_map]
  have hlen : i < (betas bs be T).length := by rw [length_betas]; exact h
  rw [List.getElem?_eq_getElem hlen]
  rfl

theorem alphaCumprodAt_eq (bs be : ℚ) (T i : ℕ) (h : i < T) :
    alphaCumprodAt bs be T i = ((alphas bs be T).take (i + 1)).prod := by
  rw [alphaCumprodAt, alphaCumprod, List.getD_eq_getElem?_getD,
    List.getElem?_map, List.getElem?_range h]
  rfl

theorem alphaCumprodAt_succ (bs be : ℚ) (T i : ℕ) (h : i + 1 < T) :
    alphaCumprodAt bs be T (i + 1) =
      alphaCumprodAt bs be T i * alphaAt bs be T (i + 1) := by
  have hlen : i + 1 < (alphas bs be T).length := by rw [length_alphas]; exact h
  rw [alphaCumprodAt_eq bs be T (i + 1) h, alphaCumprodAt_eq bs be T i (by omega),
    List.prod_take_succ _ _ hlen]
  congr 1
  rw [alphaAt, List.getD_eq_getElem?_getD, List.getElem?_eq_getElem hlen]
  rfl

theorem alphaCumprodAt_zero (bs be : ℚ) (T : ℕ) (hT : 1 ≤ T) :
    alphaCumprodAt bs be T 0 = alphaAt bs be T 0 := by
  have hlen : 0 < (alphas bs be T).length := by rw [length_alphas]; omega
  rw [alphaCumprodAt_eq bs be T 0 (by omega), List.prod_take_succ _ _ hlen]
  rw [alphaAt, List.getD_eq_getElem?_getD, List.getElem?_eq_getElem hlen]
  simp

theorem betaAt_bounds (bs be : ℚ) (T i : ℕ)
    (hbs : 0 < bs) (hbe : bs ≤ be) (hT : 1 ≤ T) (hi : i < T) :
    bs ≤ betaAt bs be T i ∧ betaAt bs be T i ≤ be := by
  rw [betaAt_eq bs be T i hi]
  split_ifs with h1
  · exact ⟨le_refl bs, hbe⟩
  · have hT2 : (2 : ℚ) ≤ (T : ℚ) := by exact_mod_cast (by omega : 2 ≤ T)
    have hden : (0 : ℚ) < (T : ℚ) - 1 := by linarith
    have hk : (0 : ℚ) ≤ (be - bs) / ((T : ℚ) - 1) :=
      div_nonneg (by linarith) (le_of_lt hden)
    constructor
    · have : (0 : ℚ) ≤ (i : ℚ) * ((be - bs) / ((T : ℚ) - 1)) :=
        mul_nonneg (Nat.cast_nonneg i) hk
      rw [mul_div_assoc]
      linarith
    · have hiT : (i : ℚ) ≤ (T : ℚ) - 1 := by
        have : ((i : ℚ) + 1) ≤ (T : ℚ) := by exact_mod_cast hi
        linarith
      have h2 : (i : ℚ) * ((be - bs) / ((T : ℚ) - 1)) ≤
          ((T : ℚ) - 1) * ((be - bs) / ((T : ℚ) - 1)) :=
        mul_le_mul_of_nonneg_right hiT hk
      have h3 : ((T : ℚ) - 1) * ((be - bs) / ((T : ℚ) - 1)) = be - bs := by
        field_simp
      rw [mul_div_assoc]
      linarith

theorem alphaAt_bounds (bs be : ℚ) (T i : ℕ)
    (hbs : 0 < bs) (hbe : bs ≤ be) (h1 : be < 1) (hT : 1 ≤ T) (hi : i < T) :
    0 < alphaAt bs be T i ∧ alphaAt bs be T i < 1 := by
  obtain ⟨hlo, hhi⟩ := betaAt_bounds bs be T i hbs hbe hT hi
  rw [alphaAt_eq bs be T i hi]
  constructor <;> linarith

theorem alphaCumprodAt_mem_unit (bs be : ℚ) (T : ℕ)
    (hbs : 0 < bs) (hbe : bs ≤ be) (h1 : be < 1) (hT : 1 ≤ T) :
    ∀ i, i < T → 0 < alphaCumprodAt bs be T i ∧ alphaCumprodAt bs be T i ≤ 1 := by
  intro i
  induction i with
  | zero =>
    intro hi
    rw [alphaCumprodAt_zero bs be T hT]
    obtain ⟨ha0, ha1⟩ := alphaAt_bounds bs be T 0 hbs hbe h1 hT hi
    exact ⟨ha0, le_of_lt ha1⟩
  | succ j ih =>
    intro hi
    obtain ⟨hp, hle⟩ := ih (by omega)
    obtain ⟨ha0, ha1⟩ := alphaAt_bounds bs be T (j + 1) hbs hbe h1 hT hi
    rw [alphaCumprodAt_succ bs be T j hi]
    exact ⟨mul_pos hp ha0, mul_le_one₀ hle (le_of_lt ha0) (le_of_lt ha1)⟩

/-- C5 counterexample: with `diffusion_steps = 1` (allowed by the claim's
`diffusion_steps >= 1`) and the default beta range, `torch.linspace`
returns the single value `beta_start`, so the betas do not run "from
`beta_start` to `beta_end`": the last entry is `beta_start`, not
`beta_end`. -/
theorem schedule_endpoint_counterexample :
    betas (1/10000) (1/50) 1 = [1/10000] ∧
    (betas (1/10000) (1/50) 1).getLast? ≠ some (1/50) := by
  have h : betas (1/10000) (1/50) 1 = [1/10000] := by
    simp [betas, linspace, List.range_succ]
  refine ⟨h, ?_⟩
  rw [h]
  simp

/-- C5 (amended): for every construction with `0 < beta_start ≤ beta_end <
1` and `diffusion_steps ≥ 1`: all four schedule arrays have length
`diffusion_steps`; the betas start at `beta_start`, are monotone
non-decreasing, and end at `beta_end` whenever `diffusion_steps ≥ 2` (for
`diffusion_steps = 1` the single beta is `beta_start`); `alpha_cumprod` is
strictly decreasing with all entries in `(0, 1]`; `alpha_cumprod[0] = 1 -
beta_start`; and `alpha_cumprod_prev[0] = 1` exactly. -/
theorem schedule_invariants (bs be : ℚ) (T : ℕ)
    (hbs : 0 < bs) (hbe : bs ≤ be) (h1 : be < 1) (hT : 1 ≤ T) :
    ((betas bs be T).length = T ∧ (alphas bs be T).length = T ∧
      (alphaCumprod bs be T).length = T ∧ (alphaCumprodPrev bs be T).length = T) ∧
    betaAt bs be T 0 = bs ∧
    (∀ i j, i ≤ j → j < T → betaAt bs be T i ≤ betaAt bs be T j) ∧
    (2 ≤ T → (betas bs be T).getLast? = some be) ∧
    (∀ i, i < T → 0 < alphaCumprodAt bs be T i ∧ alphaCumprodAt bs be T i ≤ 1) ∧
    (∀ i, i + 1 < T →
      alphaCumprodAt bs be T (i + 1) < alphaCumprodAt bs be T i) ∧
    alphaCumprodAt bs be T 0 = 1 - bs ∧
    (alphaCumprodPrev bs be T).getD 0 0 = 1 := by
  have hb0 : betaAt bs be T 0 = bs := by
    rw [betaAt_eq bs be T 0 (by omega)]
    split_ifs with h
    · rfl
    · push_cast
      ring
  refine ⟨⟨length_betas bs be T, length_alphas bs be T,
      length_alphaCumprod bs be T, length_alphaCumprodPrev bs be T hT⟩,
    hb0, ?_, ?_, alphaCumprodAt_mem_unit bs be T hbs hbe h1 hT, ?_, ?_, rfl⟩
  · intro i j hij hj
    rw [betaAt_eq bs be T i (by omega), betaAt_eq bs be T j hj]
    split_ifs with h
    · exact le_refl bs
    · have hT2 : (2 : ℚ) ≤ (T : ℚ) := by exact_mod_cast (by omega : 2 ≤ T)
      have hk : (0 : ℚ) ≤ (be - bs) / ((T : ℚ) - 1) :=
        div_nonneg (by linarith) (by linarith)
      have hcast : (i : ℚ) ≤ (j : ℚ) := by exact_mod_cast hij
      rw [mul_div_assoc, mul_div_assoc]
      have := mul_le_mul_of_nonneg_right hcast hk
      linarith
  · intro h2
    rw [List.getLast?_eq_getElem?, length_betas bs be T, betas, linspace,
      List.getElem?_map, List.getElem?_range (by omega : T - 1 < T)]
    rw [Option.map_some']
    congr 1
    rw [if_neg (by omega)]
    have hc : ((T - 1 : ℕ) : ℚ) = (T : ℚ) - 1 := by
      push_cast [Nat.cast_sub (by omega : 1 ≤ T)]
      ring
    have hden : (T : ℚ) - 1 ≠ 0 := by
      have : (2 : ℚ) ≤ (T : ℚ) := by exact_mod_cast h2
      linarith
    rw [hc]
    field_simp
  · intro i hi
    rw [alphaCumprodAt_succ bs be T i hi]
    exact mul_lt_of_lt_one_right
      (alphaCumprodAt_mem_unit bs be T hbs hbe h1 hT i (by omega)).1
      (alphaAt_bounds bs be T (i + 1) hbs hbe h1 hT hi).2
  · rw [alphaCumprodAt_zero bs be T hT, alphaAt_eq bs be T 0 (by omega), hb0]

/-- Witness for the amended C5 at the default beta range with three
diffusion steps. -/
theorem schedule_invariants_witness :
    (0 : ℚ) < 1/10000 ∧
    (betas (1/10000) (1/50) 3).length = 3 ∧
    betaAt (1/10000) (1/50) 3 0 = 1/10000 ∧
    alphaCumprodAt (1/10000) (1/50) 3 0 = 1 - 1/10000 ∧
    (alphaCumprodPrev (1/10000) (1/50) 3).getD 0 0 = 1 := by
  have h := schedule_invariants (1/10000) (1/50) 3 (by norm_num) (by norm_num)
    (by norm_num) (by omega)
  exact ⟨by norm_num, h.1.1, h.2.1, h.2.2.2.2.2.2.1, h.2.2.2.2.2.2.2⟩

theorem betas_two : betas (1/10000) (1/50) 2 = [1/10000, 1/50] := by
  simp [betas, linspace, List.range_succ]
  norm_num

theorem alphas_two : alphas (1/10000) (1/50) 2 = [9999/10000, 49/50] := by
  rw [alphas, betas_two]
  norm_num

theorem alphaCumprod_two :
    alphaCumprod (1/10000) (1/50) 2 = [9999/10000, 489951/500000] := by
  rw [alphaCumprod, alphas_two]
  simp [List.range_succ]
  norm_num

/-- C1 (code bug): model.py line 127 normalises `times` to `times /
diffusion_steps` before line 142 indexes the schedule with `times.long()`,
so the gathered value at the valid timestep `t = 1` of a
`diffusion_steps = 2` model is `alpha_cumprod[0]`, which differs from the
`alpha_cumprod[1]` the claim (and the DDPM formula) require. -/
theorem noise_extraction_wrong_schedule_entry :
    gatherCumA (1/10000) (1/50) 2 1 = some (alphaCumprodAt (1/10000) (1/50) 2 0) ∧
    alphaCumprodAt (1/10000) (1/50) 2 0 ≠ alphaCumprodAt (1/10000) (1/50) 2 1 := by
  have h0 : alphaCumprodAt (1/10000) (1/50) 2 0 = 9999/10000 := by
    rw [alphaCumprodAt, alphaCumprod_two]
    simp
  have h1 : alphaCumprodAt (1/10000) (1/50) 2 1 = 489951/500000 := by
    rw [alphaCumprodAt, alphaCumprod_two]
    simp
  constructor
  · have hl : longOfDiv 1 2 = 0 := by decide
    rw [gatherCumA, hl, torchIndex, if_pos (le_refl 0), alphaCumprod_two, h0]
    rfl
  · rw [h0, h1]
    norm_num

/-- C2 (code bug): an out-of-range timestep does not raise an
index-out-of-range error.  With `diffusion_steps = 2` the forward call at
`times = [2]` (outside `[0, 2)`) gathers index `(2 / 2).long() = 1`, which
is in range: the gather returns `alpha_cumprod[1]` and the whole forward
pass of a concrete model returns normally. -/
theorem out_of_range_timestep_not_rejected :
    gatherCumA (1/10000) (1/50) 2 2 = some (alphaCumprodAt (1/10000) (1/50) 2 1) ∧
    (ProteinDiffusionModel.forward cModel 1 1 1 zeroT4 zeroResIdx
      (fun _ => 2) cMask1).isSome = true := by
  have h1 : alphaCumprodAt (1/10000) (1/50) 2 1 = 489951/500000 := by
    rw [alphaCumprodAt, alphaCumprod_two]
    simp
  have hg : gatherCumA (1/10000) (1/50) 2 2 = some (489951/500000) := by
    have hl : longOfDiv 2 2 = 1 := by decide
    rw [gatherCumA, hl, torchIndex, if_pos (by omega : (0:ℤ) ≤ 1), alphaCumprod_two]
    rfl
  have hs : (gatherCumA (1/10000) (1/50) 2 2).isSome = true := by rw [hg]; rfl
  refine ⟨by rw [hg, h1], ?_⟩
  have hcond : ∀ b ∈ Finset.range 1,
      (gatherCumA (1/10000) (1/50) 2 ((fun _ => (2:ℤ)) b)).isSome = true :=
    fun b _ => hs
  simp only [ProteinDiffusionModel.forward]
  rw [Option.isSome_map']
  show (gatherAll (1/10000) (1/50) 2 1 (fun _ => (2:ℤ))).isSome = true
  rw [gatherAll, if_pos hcond]
  rfl

/-- C6: forward-noising at the schedule value `alpha_cumprod[t]` (as the
trainer does) and then applying the closed-form inversion of model.py line
143 at the same schedule value, with a network output equal to the clean
coordinates, recovers the injected noise exactly. -/
theorem noise_roundtrip (bs be : ℚ) (T t : ℕ) (x0 eps : ℕ → ℕ → ℕ → ℕ → ℝ)
    (ht : t < T)
    (hpos : 0 < alphaCumprodAt bs be T t)
    (hlt : alphaCumprodAt bs be T t < 1) :
    (fun b n a c =>
      ddpmExtract ((alphaCumprodAt bs be T t : ℝ))
        (forwardNoise ((alphaCumprodAt bs be T t : ℝ)) (x0 b n a c) (eps b n a c))
        (x0 b n a c)) = eps := by
  funext b n a c
  have h0 : (0 : ℝ) < ((alphaCumprodAt bs be T t : ℚ) : ℝ) := by exact_mod_cast hpos
  have h1 : ((alphaCumprodAt bs be T t : ℚ) : ℝ) < 1 := by exact_mod_cast hlt
  have hs : Real.sqrt (1 - ((alphaCumprodAt bs be T t : ℚ) : ℝ)) ≠ 0 := by
    have : (0 : ℝ) < 1 - ((alphaCumprodAt bs be T t : ℚ) : ℝ) := by linarith
    exact ne_of_gt (Real.sqrt_pos.mpr this)
  rw [ddpmExtract, forwardNoise]
  field_simp

theorem alphaCumprodAt_half : alphaCumprodAt (1/2) (1/2) 1 0 = 1/2 := by
  rw [alphaCumprodAt, alphaCumprod, alphas, betas]
  simp [linspace, List.range_succ]
  norm_num

/-- Witness for C6 at a one-step schedule with `alpha_cumprod[0] = 1/2`,
clean value 2 and noise value 3. -/
theorem noise_roundtrip_witness :
    0 < alphaCumprodAt (1/2) (1/2) 1 0 ∧
    alphaCumprodAt (1/2) (1/2) 1 0 < 1 ∧
    (fun (b n a c : ℕ) =>
      ddpmExtract ((alphaCumprodAt (1/2) (1/2) 1 0 : ℝ))
        (forwardNoise ((alphaCumprodAt (1/2) (1/2) 1 0 : ℝ))
          ((fun (_ _ _ _ : ℕ) => (2 : ℝ)) b n a c)
          ((fun (_ _ _ _ : ℕ) => (3 : ℝ)) b n a c))
        ((fun (_ _ _ _ : ℕ) => (2 : ℝ)) b n a c)) =
      (fun (_ _ _ _ : ℕ) => (3 : ℝ)) :=
  ⟨by rw [alphaCumprodAt_half]; norm_num,
   by rw [alphaCumprodAt_half]; norm_num,
   noise_roundtrip (1/2) (1/2) 1 0 (fun (_ _ _ _ : ℕ) => (2 : ℝ))
     (fun (_ _ _ _ : ℕ) => (3 : ℝ))
     (by omega) (by rw [alphaCumprodAt_half]; norm_num)
     (by rw [alphaCumprodAt_half]; norm_num)⟩

/-- C4: at an atom slot whose mask entry is zero, every EGNN layer call
returns the input coordinates unchanged at that slot, and the model forward
pass (whenever it returns) returns exactly zero there. -/
theorem masked_slot_zero (L : EGNNLayer) (M : ProteinDiffusionModel)
    (B N A : ℕ) (coords : ℕ → ℕ → ℕ → ℕ → ℝ) (node_features : ℕ → ℕ → ℕ → ℝ)
    (residue_indices : ℕ → ℕ → ℝ) (coordsM : ℕ → ℕ → ℕ → ℕ → ℝ)
    (ri : ℕ → ℕ → ℤ) (times : ℕ → ℤ) (atom_mask : ℕ → ℕ → ℕ → ℝ)
    (b n a : ℕ) (h : atom_mask b n a = 0) :
    (∀ c, (EGNNLayer.forward L B N A coords node_features atom_mask
        residue_indices).1 b n a c = coords b n a c) ∧
    (∀ out, ProteinDiffusionModel.forward M B N A coordsM ri times atom_mask =
        some out → ∀ c, out b n a c = 0) := by
  constructor
  · intro c
    show coords b n a c + _ * atom_mask b n a = coords b n a c
    rw [h, mul_zero, add_zero]
  · intro out hout c
    simp only [ProteinDiffusionModel.forward] at hout
    rw [Option.map_eq_some'] at hout
    obtain ⟨ca, hg, hf⟩ := hout
    subst hf
    simp [h]

/-- Witness for C4 with the all-zero mask, the concrete layer and the
concrete model. -/
theorem masked_slot_zero_witness :
    cMask0 0 0 0 = 0 ∧
    (EGNNLayer.forward cLayer 1 2 1 cCoords cNodeF cMask0 cRes0).1 0 0 0 0 =
      cCoords 0 0 0 0 :=
  ⟨rfl,
   (masked_slot_zero cLayer cModel 1 2 1 cCoords cNodeF cRes0 zeroT4 zeroResIdx
     (fun _ => 0) cMask0 0 0 0 rfl).1 0⟩

theorem sigmoid_pos (x : ℝ) : 0 < sigmoid x := by
  rw [sigmoid]
  positivity

theorem silu_pos (x : ℝ) (hx : 0 < x) : 0 < silu x :=
  mul_pos hx (sigmoid_pos x)

theorem silu_zero : silu 0 = 0 := by rw [silu, zero_mul]

theorem egnn_unrotated_output :
    (EGNNLayer.forward cLayer 1 2 1 cCoords cNodeF cMask1 cRes0).1 0 0 0 0 =
      1 + silu (silu (silu 1)) := by
  simp [EGNNLayer.forward, cLayer, edgeFeatures, edgeMLP, coordMLP, linear,
    selW, cCoords, cNodeF, cMask1, cRes0, Finset.sum_range_succ, silu_zero]

theorem egnn_rotated_output :
    (EGNNLayer.forward cLayer 1 2 1 cCoordsRot cNodeF cMask1 cRes0).1 0 0 0 1 = 1 := by
  simp [EGNNLayer.forward, cLayer, edgeFeatures, edgeMLP, coordMLP, linear,
    selW, cCoordsRot, cNodeF, cMask1, cRes0, Finset.sum_range_succ, silu_zero]

/-- C3 (code bug): rotation equivariance fails.  The inputs `cCoordsRot`
are exactly the inputs `cCoords` rotated by 90 degrees about the z axis;
running the concrete layer on the rotated inputs does not give the rotation
of the layer's output on the unrotated inputs: the edge MLP reads the raw
directional vector, so the scalar gate changes under rotation. -/
theorem rotation_equivariance_fails :
    cCoordsRot = (fun b n a => rotZ (cCoords b n a)) ∧
    (EGNNLayer.forward cLayer 1 2 1 cCoordsRot cNodeF cMask1 cRes0).1 0 0 0 1 ≠
      rotZ ((EGNNLayer.forward cLayer 1 2 1 cCoords cNodeF cMask1 cRes0).1 0 0 0) 1 := by
  constructor
  · funext b n a c
    by_cases h0 : c = 0
    · subst h0
      simp [cCoordsRot, cCoords, rotZ]
    · by_cases h1 : c = 1
      · subst h1
        simp [cCoordsRot, cCoords, rotZ]
      · simp [cCoordsRot, cCoords, rotZ, h0, h1]
  · have hr : rotZ ((EGNNLayer.forward cLayer 1 2 1 cCoords cNodeF cMask1
        cRes0).1 0 0 0) 1 =
        (EGNNLayer.forward cLayer 1 2 1 cCoords cNodeF cMask1 cRes0).1 0 0 0 0 := by
      rw [rotZ]
      simp
    rw [hr, egnn_rotated_output, egnn_unrotated_output]
    have hpos : 0 < silu (silu (silu 1)) :=
      silu_pos _ (silu_pos _ (silu_pos _ one_pos))
    exact ne_of_lt (by linarith)
